import Mathlib

/-!
Shallow embedding of `fish_diffusion/modules/feature_extractors/chinese_hubert.py`.

Feature tensors are modelled as nested lists of rationals: a `[B, T, C]`
tensor is a `List (List (List ℚ))` whose innermost lists are channel slices,
and a `[B, C, T]` tensor one whose innermost lists are time rows.  The
pretrained encoder and audio preprocessing are external collaborators and are
not modelled; the embedding covers the in-repository postprocessing:

* the top-k gate of `ChineseHubertSoft._forward` (lines 59-62):
  `torch.topk` along the channel axis, scatter into zeros, division by the
  channel-axis sum;
* the temporal resampling tail of `ChineseHubert.forward` (lines 92-101):
  `torch.nn.functional.interpolate(mode="linear")` to `T // downsample`
  samples, skipped when `downsample` is `None`;
* the channel concatenation of `EnsembleHubert.forward` (line 141):
  `torch.cat(features, dim=1)`.

Float arithmetic is modelled exactly over `ℚ`; where IEEE-754 finiteness
matters (division by a zero sum) a second definition tracks non-finite
results as `none`.
-/

/-- The order in which `torch.topk(·, k, dim=2)` ranks the
`(channel index, value)` pairs of one channel slice: larger values first;
on an exact value tie the lower channel index comes first (stable
selection order of the top-k primitive). -/
def topkOrder (a b : ℕ × ℚ) : Prop :=
  b.2 < a.2 ∨ (a.2 = b.2 ∧ a.1 ≤ b.1)

instance : DecidableRel topkOrder := fun a b => by
  unfold topkOrder; infer_instance

instance : IsTotal (ℕ × ℚ) topkOrder where
  total a b := by
    rcases lt_trichotomy a.2 b.2 with h | h | h
    · exact Or.inr (Or.inl h)
    · rcases Nat.le_total a.1 b.1 with hi | hi
      · exact Or.inl (Or.inr ⟨h, hi⟩)
      · exact Or.inr (Or.inr ⟨h.symm, hi⟩)
    · exact Or.inl (Or.inl h)

instance : IsTrans (ℕ × ℚ) topkOrder where
  trans a b c hab hbc := by
    rcases hab with h1 | ⟨e1, i1⟩
    · rcases hbc with h2 | ⟨e2, i2⟩
      · exact Or.inl (h2.trans h1)
      · exact Or.inl (e2 ▸ h1)
    · rcases hbc with h2 | ⟨e2, i2⟩
      · exact Or.inl (e1.symm ▸ h2)
      · exact Or.inr ⟨e1.trans e2, i1.trans i2⟩

/-- `torch.topk(features, gate_size, dim=2)` on one channel slice (line 60):
the `(channel index, value)` pairs of the `k` largest entries, in descending
value order, ties broken toward the lower channel index. -/
def topkPairs (k : ℕ) (xs : List ℚ) : List (ℕ × ℚ) :=
  (List.insertionSort topkOrder xs.enum).take k

/-- The channel indices returned by `torch.topk` on one slice. -/
def topkIndices (k : ℕ) (xs : List ℚ) : List ℕ :=
  (topkPairs k xs).map Prod.fst

/-- The values returned by `torch.topk` on one slice. -/
def topkValues (k : ℕ) (xs : List ℚ) : List ℚ :=
  (topkPairs k xs).map Prod.snd

/-- The pairs `torch.topk` does not select: the remainder of the ranked
channel slice after the first `k` pairs. -/
def restPairs (k : ℕ) (xs : List ℚ) : List (ℕ × ℚ) :=
  (List.insertionSort topkOrder xs.enum).drop k

/-- The values `torch.topk` does not select on one slice. -/
def restValues (k : ℕ) (xs : List ℚ) : List ℚ :=
  (restPairs k xs).map Prod.snd

/-- The value the scatter writes at channel `i`: the selected value whose
index is `i`, or `0` when channel `i` was not selected. -/
def scatterVal (k : ℕ) (xs : List ℚ) (i : ℕ) : ℚ :=
  match (topkPairs k xs).find? (fun p => decide (p.1 = i)) with
  | some p => p.2
  | none => 0

/-- `torch.zeros_like(features).scatter(2, indices, topk)` on one channel
slice (line 61): a slice of the input's length holding each selected value at
its original channel index and `0` everywhere else. -/
def scatterTopk (k : ℕ) (xs : List ℚ) : List ℚ :=
  (List.range xs.length).map (scatterVal k xs)

/-- `features / features.sum(2, keepdim=True)` after the scatter (line 62),
on one channel slice, in exact rational arithmetic (division by a zero sum
yields `0`; `gateSliceF` tracks the IEEE non-finite outcome instead). -/
def gateSlice (k : ℕ) (xs : List ℚ) : List ℚ :=
  (scatterTopk k xs).map fun v => v / (scatterTopk k xs).sum

/-- The same normalization step (line 62) with IEEE-754 finiteness tracked:
a finite float divided by zero is `±Inf` or `NaN`, never finite, so an entry
is `none` exactly when the channel-axis sum of the scattered slice is zero. -/
def gateSliceF (k : ℕ) (xs : List ℚ) : List (Option ℚ) :=
  (scatterTopk k xs).map fun v =>
    if (scatterTopk k xs).sum = 0 then none else some (v / (scatterTopk k xs).sum)

/-- The top-k gate of `ChineseHubertSoft._forward` (lines 59-62) applied
across a `[B, T, C]` tensor: dims 0 and 1 are mapped, dim 2 is gated.
The final `transpose(1, 2)` of line 64 only permutes dims 1 and 2 and is
not part of the gate itself. -/
def gateTensor (k : ℕ) (x : List (List (List ℚ))) : List (List (List ℚ)) :=
  x.map (List.map (gateSlice k))

/-- Number of non-zero entries of a channel slice. -/
def nonzeroCount (xs : List ℚ) : ℕ :=
  xs.countP fun v => decide (v ≠ 0)

/-- The channel slice of a `[B, T, C]` tensor at batch `b`, time `t`
(empty when out of range). -/
def sliceBT (x : List (List (List ℚ))) (b t : ℕ) : List ℚ :=
  (x.getD b []).getD t []

/-- Pointwise scaling of every entry of a `[B, T, C]` tensor. -/
def tensorScale (c : ℚ) (x : List (List (List ℚ))) : List (List (List ℚ)) :=
  x.map (List.map (List.map fun v => c * v))

/-- One output sample of `torch.nn.functional.interpolate(mode="linear")`
with the default `align_corners=False`: the source coordinate is clamped
below at `0`, the two neighbouring input samples are read (the right
neighbour clamped to the last index) and blended linearly. -/
def interpAt (xs : List ℚ) (src : ℚ) : ℚ :=
  (1 - (max src 0 - ((⌊max src 0⌋).toNat : ℚ))) * xs.getD (⌊max src 0⌋).toNat 0 +
    (max src 0 - ((⌊max src 0⌋).toNat : ℚ)) *
      xs.getD (min ((⌊max src 0⌋).toNat + 1) (xs.length - 1)) 0

/-- `torch.nn.functional.interpolate(·, size=outLen, mode="linear")` along
the time axis of one (batch, channel) row: output sample `i` reads source
coordinate `(i + 1/2) * T / outLen - 1/2` (`align_corners=False`). -/
def interpLinear (xs : List ℚ) (outLen : ℕ) : List ℚ :=
  (List.range outLen).map fun i : ℕ =>
    interpAt xs (((i : ℚ) + 1/2) * (xs.length : ℚ) / (outLen : ℚ) - 1/2)

/-- `features.shape[2]` of a `[B, C, T]` tensor (the time length). -/
def timeLen (x : List (List (List ℚ))) : ℕ :=
  ((x.headD []).headD []).length

/-- The resampling tail of `ChineseHubert.forward` (lines 92-101): when
`downsample` is `None` the features are returned as-is; otherwise every
(batch, channel) time row is linearly resampled to
`features.shape[2] // downsample` samples. -/
def hubertResample (downsample : Option ℕ) (x : List (List (List ℚ))) :
    List (List (List ℚ)) :=
  match downsample with
  | none => x
  | some d => x.map (List.map fun row => interpLinear row (timeLen x / d))

/-- `torch.cat([x, y], dim=1)` for two `[B, C, T]` tensors: per batch index,
the channel rows of `x` followed by those of `y`. -/
def catChannels (x y : List (List (List ℚ))) : List (List (List ℚ)) :=
  List.zipWith (· ++ ·) x y

/-- The `torch.cat(features, dim=1)` step of `EnsembleHubert.forward`
(line 141) over the per-model feature tensors, in model-list order. -/
def ensembleConcat (fs : List (List (List (List ℚ)))) : List (List (List ℚ)) :=
  match fs with
  | [] => []
  | f :: rest => rest.foldl catChannels f

/-! ### Basic properties of the top-k selection -/

lemma sortedPairs_perm (xs : List ℚ) :
    (List.insertionSort topkOrder xs.enum).Perm xs.enum :=
  List.perm_insertionSort _ _

lemma sortedPairs_pairwise (xs : List ℚ) :
    List.Pairwise topkOrder (List.insertionSort topkOrder xs.enum) :=
  List.sorted_insertionSort _ _

lemma mem_enum_data {xs : List ℚ} {p : ℕ × ℚ} (hp : p ∈ xs.enum) :
    p.1 < xs.length ∧ xs.getD p.1 0 = p.2 := by
  have h := List.mem_enum_iff_get?.mp hp
  rcases List.get?_eq_some.mp h with ⟨hlt, hget⟩
  refine ⟨hlt, ?_⟩
  rw [List.getD_eq_getElem _ _ hlt]
  simpa using hget

lemma topkPairs_subset {k : ℕ} {xs : List ℚ} {p : ℕ × ℚ}
    (hp : p ∈ topkPairs k xs) : p ∈ xs.enum :=
  (sortedPairs_perm xs).mem_iff.mp (List.mem_of_mem_take hp)

lemma nodup_topk_fst (k : ℕ) (xs : List ℚ) :
    ((topkPairs k xs).map Prod.fst).Nodup := by
  have h1 : (xs.enum.map Prod.fst).Nodup := by
    rw [List.enum_map_fst]; exact List.nodup_range _
  have h2 : ((List.insertionSort topkOrder xs.enum).map Prod.fst).Nodup :=
    ((sortedPairs_perm xs).map Prod.fst).nodup_iff.mpr h1
  have h3 : (topkPairs k xs).map Prod.fst
      = ((List.insertionSort topkOrder xs.enum).map Prod.fst).take k := by
    unfold topkPairs; rw [List.map_take]
  rw [h3]
  exact h2.sublist (List.take_sublist _ _)

lemma length_topkPairs (k : ℕ) (xs : List ℚ) :
    (topkPairs k xs).length = min k xs.length := by
  unfold topkPairs
  rw [List.length_take, (sortedPairs_perm xs).length_eq, List.enum_length]

lemma length_scatterTopk (k : ℕ) (xs : List ℚ) :
    (scatterTopk k xs).length = xs.length := by
  unfold scatterTopk
  rw [List.length_map, List.length_range]

lemma scatterVal_of_mem {k : ℕ} {xs : List ℚ} {p : ℕ × ℚ}
    (hp : p ∈ topkPairs k xs) : scatterVal k xs p.1 = p.2 := by
  unfold scatterVal
  rcases hfind : (topkPairs k xs).find? (fun q => decide (q.1 = p.1)) with _ | q
  · exfalso
    have h := List.find?_eq_none.mp hfind p hp
    simp at h
  · have hq := List.mem_of_find?_eq_some hfind
    have heq : q.1 = p.1 := by simpa using List.find?_some hfind
    have hqp : q = p := List.inj_on_of_nodup_map (nodup_topk_fst k xs) hq hp heq
    rw [hfind]
    exact congrArg Prod.snd hqp

lemma scatterVal_of_not_mem {k : ℕ} {xs : List ℚ} {i : ℕ}
    (hi : i ∉ topkIndices k xs) : scatterVal k xs i = 0 := by
  unfold scatterVal
  rcases hfind : (topkPairs k xs).find? (fun q => decide (q.1 = i)) with _ | q
  · rw [hfind]
  · exfalso
    apply hi
    have hq := List.mem_of_find?_eq_some hfind
    have heq : q.1 = i := by simpa using List.find?_some hfind
    exact heq ▸ List.mem_map_of_mem Prod.fst hq

lemma scatterTopk_getD {k : ℕ} {xs : List ℚ} {i : ℕ} (hi : i < xs.length) :
    (scatterTopk k xs).getD i 0 = scatterVal k xs i := by
  unfold scatterTopk
  have h1 : i < ((List.range xs.length).map (scatterVal k xs)).length := by
    simpa using hi
  rw [List.getD_eq_getElem _ _ h1, List.getElem_map, List.getElem_range]

lemma pairwise_topk_split (k : ℕ) (xs : List ℚ) :
    List.Pairwise topkOrder (topkPairs k xs ++ restPairs k xs) := by
  unfold topkPairs restPairs
  rw [List.take_append_drop]
  exact sortedPairs_pairwise xs

/-- C3: the values the gate retains at each position are exactly the `k`
largest input values of that channel slice, value-for-value: together with
the rejected values they are a permutation of the slice, every retained
value dominates every rejected one, and the scattered slice holds each
retained value at its original channel index. -/
theorem gate_selects_k_largest (k : ℕ) (xs : List ℚ) :
    (topkValues k xs ++ restValues k xs).Perm xs ∧
    (∀ v ∈ topkValues k xs, ∀ w ∈ restValues k xs, w ≤ v) ∧
    ∀ p ∈ topkPairs k xs, (scatterTopk k xs).getD p.1 0 = p.2 := by
  refine ⟨?_, ?_, ?_⟩
  · have h : topkValues k xs ++ restValues k xs
        = (List.insertionSort topkOrder xs.enum).map Prod.snd := by
      unfold topkValues restValues topkPairs restPairs
      rw [← List.map_append, List.take_append_drop]
    rw [h]
    have h2 := (sortedPairs_perm xs).map Prod.snd
    rwa [List.enum_map_snd] at h2
  · intro v hv w hw
    rcases List.mem_map.mp hv with ⟨a, ha, rfl⟩
    rcases List.mem_map.mp hw with ⟨c, hc, rfl⟩
    have hac := (List.pairwise_append.mp (pairwise_topk_split k xs)).2.2 a ha c hc
    rcases hac with h | ⟨h, _⟩
    · exact h.le
    · exact h.ge
  · intro p hp
    have hlen := (mem_enum_data (topkPairs_subset hp)).1
    rw [scatterTopk_getD hlen, scatterVal_of_mem hp]

/-- Witness for C3 at the concrete slice `[3, 7]` with `k = 1`. -/
theorem gate_selects_k_largest_wit :
    (topkValues 1 [(3:ℚ), 7] ++ restValues 1 [(3:ℚ), 7]).Perm [(3:ℚ), 7] ∧
    (scatterTopk 1 [(3:ℚ), 7]).getD 1 0 = 7 := by
  have h := gate_selects_k_largest 1 [(3:ℚ), 7]
  refine ⟨h.1, ?_⟩
  have hm : ((1 : ℕ), (7 : ℚ)) ∈ topkPairs 1 [(3:ℚ), 7] := by decide
  exact h.2.2 (1, 7) hm

/-- C7: the top-k selection breaks exact value ties in favour of the lower
channel index: if channel `j` is selected and channel `i < j` holds the same
value, channel `i` is selected as well. -/
theorem topk_tie_lower_index (k : ℕ) (xs : List ℚ) (i j : ℕ)
    (hij : i < j) (hj : j < xs.length) (hv : xs.getD i 0 = xs.getD j 0)
    (hjk : j ∈ topkIndices k xs) : i ∈ topkIndices k xs := by
  rcases List.mem_map.mp hjk with ⟨p, hp, hp1⟩
  have hi : i < xs.length := hij.trans hj
  have hget : xs.get? i = some (xs.getD i 0) := by
    rw [List.get?_eq_getElem?, List.getElem?_eq_getElem hi,
      List.getD_eq_getElem _ _ hi]
  have hqenum : (i, xs.getD i 0) ∈ xs.enum := List.mem_enum_iff_get?.mpr hget
  have hqmem : (i, xs.getD i 0) ∈ List.insertionSort topkOrder xs.enum :=
    (sortedPairs_perm xs).mem_iff.mpr hqenum
  have hsplit : (i, xs.getD i 0) ∈ topkPairs k xs ++ restPairs k xs := by
    unfold topkPairs restPairs
    rw [List.take_append_drop]
    exact hqmem
  rcases List.mem_append.mp hsplit with hin | hdrop
  · exact List.mem_map.mpr ⟨_, hin, rfl⟩
  · exfalso
    have hrel := (List.pairwise_append.mp (pairwise_topk_split k xs)).2.2
      p hp _ hdrop
    have hp2 : xs.getD j 0 = p.2 := by
      have h := (mem_enum_data (topkPairs_subset hp)).2
      rwa [hp1] at h
    rcases hrel with h | ⟨_, hle⟩
    · rw [hv, hp2] at h
      exact lt_irrefl _ h
    · rw [hp1] at hle
      exact absurd hle (Nat.not_le.mpr hij)

/-- Witness for C7: in `[5, 5, 0, 0]` with `k = 2`, channel 1 is selected,
channels 0 and 1 tie, and channel 0 is selected too. -/
theorem topk_tie_lower_index_wit : (0 : ℕ) ∈ topkIndices 2 [(5:ℚ), 5, 0, 0] :=
  topk_tie_lower_index 2 [(5:ℚ), 5, 0, 0] 0 1 (by decide) (by decide)
    (by decide) (by decide)

/-! ### Normalization: shape, sum and sparsity of the gated slice -/

lemma sum_map_div (l : List ℚ) (s : ℚ) :
    (l.map fun v => v / s).sum = l.sum / s := by
  induction l with
  | nil => simp
  | cons a t ih => simp [ih, add_div]

lemma mem_topkIndices_lt {k : ℕ} {xs : List ℚ} {i : ℕ}
    (hi : i ∈ topkIndices k xs) : i < xs.length := by
  rcases List.mem_map.mp hi with ⟨p, hp, rfl⟩
  exact (mem_enum_data (topkPairs_subset hp)).1

lemma length_topkIndices (k : ℕ) (xs : List ℚ) :
    (topkIndices k xs).length = min k xs.length := by
  unfold topkIndices
  rw [List.length_map, length_topkPairs]

/-- C1 (amended): the gated slice always has the shape of its input (also on
zero-sum slices); when the channel-axis sum of the scattered top-k values is
non-zero the gated slice sums to 1; and when additionally every selected
top-k value is non-zero, exactly `k` channels of the gated slice are
non-zero. -/
theorem gate_shape_norm_sparsity (k : ℕ) (xs : List ℚ)
    (hk : k ≤ xs.length) :
    (gateSlice k xs).length = xs.length ∧
    ((scatterTopk k xs).sum ≠ 0 → (gateSlice k xs).sum = 1) ∧
    ((scatterTopk k xs).sum ≠ 0 → (∀ p ∈ topkPairs k xs, p.2 ≠ 0) →
      nonzeroCount (gateSlice k xs) = k) := by
  refine ⟨?_, ?_, ?_⟩
  · unfold gateSlice
    rw [List.length_map, length_scatterTopk]
  · intro hs
    unfold gateSlice
    rw [sum_map_div, div_self hs]
  · intro hs hv
    unfold nonzeroCount gateSlice
    rw [List.countP_map]
    have hc1 : List.countP
        ((fun v => decide (v ≠ 0)) ∘ fun v => v / (scatterTopk k xs).sum)
        (scatterTopk k xs)
        = List.countP (fun v => decide (v ≠ 0)) (scatterTopk k xs) := by
      apply List.countP_congr
      intro x _
      simp [Function.comp, div_ne_zero_iff, hs]
    rw [hc1]
    unfold scatterTopk
    rw [List.countP_map]
    have hc2 : List.countP ((fun v => decide (v ≠ 0)) ∘ scatterVal k xs)
        (List.range xs.length)
        = List.countP (fun i => decide (i ∈ topkIndices k xs))
          (List.range xs.length) := by
      apply List.countP_congr
      intro i _
      by_cases hmem : i ∈ topkIndices k xs
      · rcases List.mem_map.mp hmem with ⟨p, hp, rfl⟩
        simp [Function.comp, scatterVal_of_mem hp, hv p hp, hmem]
      · simp [Function.comp, scatterVal_of_not_mem hmem, hmem]
    rw [hc2, List.countP_eq_length_filter]
    have hperm : ((List.range xs.length).filter
        fun i => decide (i ∈ topkIndices k xs)).Perm (topkIndices k xs) := by
      refine (List.perm_ext_iff_of_nodup ?_ ?_).mpr ?_
      · exact (List.nodup_range _).filter _
      · exact nodup_topk_fst k xs
      · intro a
        simp only [List.mem_filter, List.mem_range, decide_eq_true_eq]
        exact ⟨fun h => h.2, fun h => ⟨mem_topkIndices_lt h, h⟩⟩
    rw [hperm.length_eq, length_topkIndices, Nat.min_eq_left hk]

/-- Witness for the amended C1 at `k = 2`, slice `[0.1, 0.5, 0.3, 0.9]`. -/
theorem gate_shape_norm_sparsity_wit :
    (gateSlice 2 [(1:ℚ)/10, 1/2, 3/10, 9/10]).length = 4 ∧
    (gateSlice 2 [(1:ℚ)/10, 1/2, 3/10, 9/10]).sum = 1 ∧
    nonzeroCount (gateSlice 2 [(1:ℚ)/10, 1/2, 3/10, 9/10]) = 2 := by
  have hs : (scatterTopk 2 [(1:ℚ)/10, 1/2, 3/10, 9/10]).sum ≠ 0 := by
    norm_num [scatterTopk, scatterVal, topkPairs, topkOrder, List.enum,
      List.enumFrom, List.insertionSort, List.orderedInsert, List.range_succ,
      List.find?]
  have he : topkPairs 2 [(1:ℚ)/10, 1/2, 3/10, 9/10] = [(3, 9/10), (1, 1/2)] := by
    norm_num [topkPairs, topkOrder, List.enum, List.enumFrom,
      List.insertionSort, List.orderedInsert]
  have hv : ∀ p ∈ topkPairs 2 [(1:ℚ)/10, 1/2, 3/10, 9/10], p.2 ≠ 0 := by
    rw [he]
    intro p hp
    simp only [List.mem_cons, List.not_mem_nil, or_false] at hp
    rcases hp with rfl | rfl <;> norm_num
  have h := gate_shape_norm_sparsity 2 [(1:ℚ)/10, 1/2, 3/10, 9/10]
    (by norm_num)
  exact ⟨by simpa using h.1, h.2.1 hs, h.2.2 hs hv⟩

/-- Counterexample to C1 as stated: at `k = 2` the slice `[1, 0, 0, 0]` is
not all-zero, yet only one channel of the gated slice is non-zero; and the
slice `[1, -1]` is not all-zero, yet its gated slice sums to 0, not 1
(its top-k sum is zero, so the real code divides by zero there). -/
theorem gate_exact_k_cex :
    (nonzeroCount (gateSlice 2 [(1:ℚ), 0, 0, 0]) = 1 ∧
      ¬ (∀ v ∈ [(1:ℚ), 0, 0, 0], v = 0)) ∧
    ((gateSlice 2 [(1:ℚ), -1]).sum = 0 ∧ ¬ (∀ v ∈ [(1:ℚ), -1], v = 0)) := by
  refine ⟨⟨?_, ?_⟩, ?_, ?_⟩
  · have hg : gateSlice 2 [(1:ℚ), 0, 0, 0] = [1, 0, 0, 0] := by
      norm_num [gateSlice, scatterTopk, scatterVal, topkPairs, topkOrder,
        List.enum, List.enumFrom, List.insertionSort, List.orderedInsert,
        List.range_succ, List.find?]
    rw [hg]
    decide
  · intro h
    have := h 1 (by simp)
    norm_num at this
  · norm_num [gateSlice, scatterTopk, scatterVal, topkPairs, topkOrder,
      List.enum, List.enumFrom, List.insertionSort, List.orderedInsert,
      List.range_succ, List.find?]
  · intro h
    have := h 1 (by simp)
    norm_num at this

/-- C2: with `k = 2` on the slice `[0.1, 0.5, 0.3, 0.9]`, channels 3 and 1
are retained with raw values `0.9` and `0.5`, and the gated slice is
`[0, 0.5/1.4, 0, 0.9/1.4] = [0, 5/14, 0, 9/14]`. -/
theorem gate_topk2_scenario :
    topkIndices 2 [(1:ℚ)/10, 1/2, 3/10, 9/10] = [3, 1] ∧
    topkValues 2 [(1:ℚ)/10, 1/2, 3/10, 9/10] = [9/10, 1/2] ∧
    gateSlice 2 [(1:ℚ)/10, 1/2, 3/10, 9/10] = [0, 5/14, 0, 9/14] := by
  refine ⟨?_, ?_, ?_⟩
  · norm_num [topkIndices, topkPairs, topkOrder, List.enum, List.enumFrom,
      List.insertionSort, List.orderedInsert]
  · norm_num [topkValues, topkPairs, topkOrder, List.enum, List.enumFrom,
      List.insertionSort, List.orderedInsert]
  · norm_num [gateSlice, scatterTopk, scatterVal, topkPairs, topkOrder,
      List.enum, List.enumFrom, List.insertionSort, List.orderedInsert,
      List.range_succ, List.find?]

/-- C6: whenever the channel slice entering the normalization sums to zero,
every entry the division produces at that position is non-finite (`none` in
the finiteness-tracking model); nothing intercepts this. -/
theorem gate_zero_sum_nonfinite (k : ℕ) (xs : List ℚ)
    (hs : (scatterTopk k xs).sum = 0) :
    ∀ o ∈ gateSliceF k xs, o = none := by
  intro o ho
  unfold gateSliceF at ho
  rcases List.mem_map.mp ho with ⟨v, _, rfl⟩
  simp [hs]

/-- Witness for C6 at the all-zero slice `[0, 0, 0, 0]` with `k = 2`. -/
theorem gate_zero_sum_nonfinite_wit :
    (scatterTopk 2 [(0:ℚ), 0, 0, 0]).sum = 0 ∧
    ∀ o ∈ gateSliceF 2 [(0:ℚ), 0, 0, 0], o = none := by
  have hs : (scatterTopk 2 [(0:ℚ), 0, 0, 0]).sum = 0 := by
    norm_num [scatterTopk, scatterVal, topkPairs, topkOrder, List.enum,
      List.enumFrom, List.insertionSort, List.orderedInsert, List.range_succ,
      List.find?]
  exact ⟨hs, gate_zero_sum_nonfinite 2 _ hs⟩

/-! ### Temporal resampling -/

lemma interpLinear_length (xs : List ℚ) (n : ℕ) :
    (interpLinear xs n).length = n := by
  unfold interpLinear
  rw [List.length_map, List.length_range]

lemma interpLinear_self (xs : List ℚ) : interpLinear xs xs.length = xs := by
  apply List.ext_getElem (interpLinear_length xs xs.length)
  intro i h1 h2
  unfold interpLinear interpAt
  rw [List.getElem_map, List.getElem_range]
  have hn : ((xs.length : ℚ)) ≠ 0 := by
    have h3 : 0 < xs.length := lt_of_le_of_lt (Nat.zero_le i) h2
    exact_mod_cast h3.ne'
  have hc : ((i : ℚ) + 1/2) * (xs.length : ℚ) / (xs.length : ℚ) - 1/2 = (i : ℚ) := by
    rw [mul_div_cancel_right₀ _ hn]
    ring
  rw [hc]
  have hmax : max ((i : ℚ)) 0 = (i : ℚ) := max_eq_left (by positivity)
  rw [hmax, Int.floor_natCast, Int.toNat_ofNat, sub_self]
  simp [List.getD_eq_getElem _ _ h2, List.getElem?_eq_getElem h2]

/-- C4: with downsample factor `d > 0` every time row of the resampled
tensor has length `T / d` (integer division); with `d = 1` the tensor is
returned unchanged; with the factor unset the stage is skipped entirely. -/
theorem hubertResample_len_id (d T : ℕ) (x : List (List (List ℚ)))
    (hd : 0 < d) (hT : timeLen x = T)
    (hrect : ∀ ch ∈ x, ∀ row ∈ ch, row.length = T) :
    (∀ ch ∈ hubertResample (some d) x, ∀ row ∈ ch, row.length = T / d) ∧
    hubertResample (some 1) x = x ∧
    hubertResample none x = x := by
  refine ⟨?_, ?_, rfl⟩
  · intro ch hch row hrow
    unfold hubertResample at hch
    rcases List.mem_map.mp hch with ⟨ch0, _, rfl⟩
    rcases List.mem_map.mp hrow with ⟨row0, _, rfl⟩
    rw [interpLinear_length, hT]
  · show x.map (List.map fun row => interpLinear row (timeLen x / 1)) = x
    have h1 : timeLen x / 1 = T := by rw [hT, Nat.div_one]
    rw [h1]
    have h2 : ∀ ch ∈ x, List.map (fun row => interpLinear row T) ch = ch := by
      intro ch hch
      have h3 : ∀ row ∈ ch, interpLinear row T = row := by
        intro row hrow
        rw [← hrect ch hch row hrow]
        exact interpLinear_self row
      calc List.map (fun row => interpLinear row T) ch
          = List.map id ch := List.map_congr_left (by simpa using h3)
        _ = ch := List.map_id ch
    calc x.map (List.map fun row => interpLinear row T)
        = x.map id := List.map_congr_left (by simpa using h2)
      _ = x := List.map_id x

/-- Witness for C4: identity resampling of a `[1, 1, 4]` tensor. -/
theorem hubertResample_len_id_wit :
    hubertResample (some 1) [[[(1:ℚ), 2, 3, 4]]] = [[[(1:ℚ), 2, 3, 4]]] :=
  (hubertResample_len_id 1 4 [[[(1:ℚ), 2, 3, 4]]] (by decide) rfl
    (by decide)).2.1

/-- C8: downsampling the `[1, 1, 8]` tensor `[0, 1, ..., 7]` by factor 2
yields time length 4 with linearly interpolated values
`[0.5, 2.5, 4.5, 6.5]`. -/
theorem hubertResample_scenario :
    hubertResample (some 2) [[[(0:ℚ), 1, 2, 3, 4, 5, 6, 7]]]
      = [[[1/2, 5/2, 9/2, 13/2]]] := by
  have h : interpLinear [(0:ℚ), 1, 2, 3, 4, 5, 6, 7] 4 = [1/2, 5/2, 9/2, 13/2] := by
    norm_num [interpLinear, interpAt, List.range_succ]
    simp
    norm_num
  have ht : timeLen [[[(0:ℚ), 1, 2, 3, 4, 5, 6, 7]]] / 2 = 4 := rfl
  simp only [hubertResample, List.map_cons, List.map_nil, ht, h]

/-! ### Ensemble concatenation -/

/-- C5: concatenating two per-model `[B, C, T]` feature tensors along the
channel axis: at every batch index the result has `C1 + C2` channel rows,
the first `C1` of which are the first model's rows and the rest the second
model's rows, in model-list order. -/
theorem ensembleConcat_two_blocks (x y : List (List (List ℚ)))
    (B c1 c2 T b : ℕ)
    (hxB : x.length = B) (hyB : y.length = B) (hb : b < B)
    (hc1 : (x.getD b []).length = c1) (hc2 : (y.getD b []).length = c2)
    (hTx : ∀ row ∈ x.getD b [], row.length = T)
    (hTy : ∀ row ∈ y.getD b [], row.length = T) :
    ((ensembleConcat [x, y]).getD b []).length = c1 + c2 ∧
    ((ensembleConcat [x, y]).getD b []).take c1 = x.getD b [] ∧
    ((ensembleConcat [x, y]).getD b []).drop c1 = y.getD b [] := by
  have hbx : b < x.length := hxB ▸ hb
  have hby : b < y.length := hyB ▸ hb
  have hcat : ensembleConcat [x, y] = List.zipWith (· ++ ·) x y := rfl
  have hlen : b < (List.zipWith (· ++ ·) x y).length := by
    rw [List.length_zipWith]
    exact lt_min hbx hby
  have hget : (ensembleConcat [x, y]).getD b [] = x.getD b [] ++ y.getD b [] := by
    rw [hcat, List.getD_eq_getElem _ _ hlen, List.getElem_zipWith,
      List.getD_eq_getElem _ _ hbx, List.getD_eq_getElem _ _ hby]
  refine ⟨?_, ?_, ?_⟩
  · rw [hget, List.length_append, hc1, hc2]
  · rw [hget, List.take_left' hc1]
  · rw [hget, List.drop_left' hc1]

/-- Witness for C5 at `x = [[[1], [2]]]`, `y = [[[3]]]`. -/
theorem ensembleConcat_two_blocks_wit :
    ((ensembleConcat [[[[(1:ℚ)], [2]]], [[[(3:ℚ)]]]]).getD 0 []).length = 3 ∧
    ((ensembleConcat [[[[(1:ℚ)], [2]]], [[[(3:ℚ)]]]]).getD 0 []).take 2
      = [[(1:ℚ)], [2]] ∧
    ((ensembleConcat [[[[(1:ℚ)], [2]]], [[[(3:ℚ)]]]]).getD 0 []).drop 2
      = [[(3:ℚ)]] :=
  ensembleConcat_two_blocks [[[(1:ℚ)], [2]]] [[[(3:ℚ)]]] 1 2 1 1 0
    rfl rfl (by decide) rfl rfl (by decide) (by decide)

/-! ### Scale invariance of the gate -/

/-- Scaling the value component of a `(channel index, value)` pair. -/
def scalePair (c : ℚ) : ℕ × ℚ → ℕ × ℚ :=
  Prod.map id fun v => c * v

lemma topkOrder_scalePair {c : ℚ} (hc : 0 < c) (a b : ℕ × ℚ) :
    topkOrder (scalePair c a) (scalePair c b) ↔ topkOrder a b := by
  unfold topkOrder scalePair Prod.map
  simp only [id]
  rw [mul_lt_mul_left hc, mul_right_inj' hc.ne']

lemma orderedInsert_scalePair {c : ℚ} (hc : 0 < c) (a : ℕ × ℚ)
    (l : List (ℕ × ℚ)) :
    List.orderedInsert topkOrder (scalePair c a) (l.map (scalePair c))
      = (List.orderedInsert topkOrder a l).map (scalePair c) := by
  induction l with
  | nil => rfl
  | cons b t ih =>
    by_cases h : topkOrder a b
    · simp only [List.map_cons, List.orderedInsert,
        if_pos ((topkOrder_scalePair hc a b).mpr h), if_pos h, List.map_cons]
    · simp only [List.map_cons, List.orderedInsert,
        if_neg (fun hh => h ((topkOrder_scalePair hc a b).mp hh)), if_neg h,
        List.map_cons, ih]

lemma insertionSort_scalePair {c : ℚ} (hc : 0 < c) (l : List (ℕ × ℚ)) :
    List.insertionSort topkOrder (l.map (scalePair c))
      = (List.insertionSort topkOrder l).map (scalePair c) := by
  induction l with
  | nil => rfl
  | cons b t ih =>
    simp only [List.map_cons, List.insertionSort, ih,
      orderedInsert_scalePair hc]

lemma topkPairs_scale {c : ℚ} (hc : 0 < c) (k : ℕ) (xs : List ℚ) :
    topkPairs k (xs.map fun v => c * v)
      = (topkPairs k xs).map (scalePair c) := by
  unfold topkPairs
  rw [List.enum_map]
  have hsp : List.map (Prod.map id fun v => c * v) xs.enum
      = List.map (scalePair c) xs.enum := rfl
  rw [hsp, insertionSort_scalePair hc, List.map_take]

lemma scatterTopk_scale {c : ℚ} (hc : 0 < c) (k : ℕ) (xs : List ℚ) :
    scatterTopk k (xs.map fun v => c * v)
      = (scatterTopk k xs).map fun v => c * v := by
  unfold scatterTopk
  rw [List.length_map, List.map_map]
  apply List.map_congr_left
  intro i _
  show scatterVal k (xs.map fun v => c * v) i = c * scatterVal k xs i
  unfold scatterVal
  rw [topkPairs_scale hc, List.find?_map]
  rcases h : (topkPairs k xs).find? (fun p => decide (p.1 = i)) with _ | p
  · have h2 : (topkPairs k xs).find?
        ((fun p => decide (p.1 = i)) ∘ scalePair c) = none := h
    rw [h2, h]
    simp
  · have h2 : (topkPairs k xs).find?
        ((fun p => decide (p.1 = i)) ∘ scalePair c) = some p := h
    rw [h2, h]
    rfl

lemma sum_map_mul (c : ℚ) (l : List ℚ) :
    (l.map fun v => c * v).sum = c * l.sum := by
  induction l with
  | nil => simp
  | cons a t ih => simp [ih, mul_add]

lemma gateSlice_scale {c : ℚ} (hc : 0 < c) (k : ℕ) (xs : List ℚ) :
    gateSlice k (xs.map fun v => c * v) = gateSlice k xs := by
  unfold gateSlice
  rw [scatterTopk_scale hc, sum_map_mul, List.map_map]
  apply List.map_congr_left
  intro v _
  show c * v / (c * (scatterTopk k xs).sum) = v / (scatterTopk k xs).sum
  exact mul_div_mul_left v _ hc.ne'

/-- C9: the gate is invariant under positive scaling of its input: scaling
every entry of a tensor by `c > 0` selects the same channels and the
normalization cancels the factor, so the gated output is unchanged.  (The
distinctness hypothesis of the claim is stated but not needed: the stable
tie-break makes the selection scale-invariant even with ties.) -/
theorem gate_scale_invariant (k : ℕ) (c : ℚ) (x : List (List (List ℚ)))
    (hc : 0 < c)
    (hdist : ∀ bt ∈ x, ∀ sl ∈ bt, sl.Pairwise fun a b => a ≠ b) :
    gateTensor k (tensorScale c x) = gateTensor k x := by
  unfold gateTensor tensorScale
  rw [List.map_map]
  apply List.map_congr_left
  intro bt _
  show List.map (gateSlice k) (bt.map (List.map fun v => c * v))
      = List.map (gateSlice k) bt
  rw [List.map_map]
  apply List.map_congr_left
  intro sl _
  exact gateSlice_scale hc k sl

/-- Witness for C9 at `c = 2`, tensor `[[[1, 2, 3]]]`, `k = 2`. -/
theorem gate_scale_invariant_wit :
    gateTensor 2 (tensorScale 2 [[[(1:ℚ), 2, 3]]]) = gateTensor 2 [[[(1:ℚ), 2, 3]]] :=
  gate_scale_invariant 2 2 [[[(1:ℚ), 2, 3]]] (by norm_num) (by decide)

/-! ### Frame locality of the gate -/

lemma getD_map_fd {α β : Type} (f : α → β) (l : List α) (n : ℕ) (d : α) :
    (l.map f).getD n (f d) = f (l.getD n d) := by
  rw [List.getD_eq_getElem?_getD, List.getD_eq_getElem?_getD,
    List.getElem?_map]
  cases l[n]? <;> rfl

lemma sliceBT_gateTensor (k : ℕ) (x : List (List (List ℚ))) (b t : ℕ) :
    sliceBT (gateTensor k x) b t = gateSlice k (sliceBT x b t) := by
  unfold sliceBT gateTensor
  have h1 : (x.map (List.map (gateSlice k))).getD b []
      = List.map (gateSlice k) (x.getD b []) :=
    getD_map_fd (List.map (gateSlice k)) x b []
  rw [h1]
  exact getD_map_fd (gateSlice k) (x.getD b []) t []

/-- C10: the gate is frame-local: the output channel slice at a
(batch, time) position depends only on the input channel slice at that
position, so two inputs agreeing there produce the same gated slice there,
whatever they do elsewhere. -/
theorem gate_frame_local (k : ℕ) (x y : List (List (List ℚ))) (b t : ℕ)
    (h : sliceBT x b t = sliceBT y b t) :
    sliceBT (gateTensor k x) b t = sliceBT (gateTensor k y) b t := by
  rw [sliceBT_gateTensor, sliceBT_gateTensor, h]

/-- Witness for C10: two tensors that agree on the slice at `(0, 0)` but
differ elsewhere get the same gated slice at `(0, 0)`. -/
theorem gate_frame_local_wit :
    sliceBT (gateTensor 2 [[[(1:ℚ), 2]]]) 0 0
      = sliceBT (gateTensor 2 [[[(1:ℚ), 2], [5, 6]]]) 0 0 :=
  gate_frame_local 2 [[[(1:ℚ), 2]]] [[[(1:ℚ), 2], [5, 6]]] 0 0 rfl
